import Mathlib

/-!
Verification development for the torrent-aggregation engine of
deflix-stremio: a shallow embedding of `pkg/imdb2torrent` (the
`Client.FindMagnets` orchestrator, the `cacheEntry` serialization, and the
ibit scraping client) together with theorems settling the specified
properties.

Strings are modelled as Lean `String` / `List Char`; Go operates on UTF-8
bytes, which coincides with the character-level model on ASCII data (all
pattern literals involved are ASCII).  Timestamps are modelled as `Nat`
(absolute time) and durations as `Int`, mirroring Go's signed durations.
-/

/-- One discovered torrent candidate (struct `Result`, client.go). -/
structure Result where
  Title : String
  Quality : String
  InfoHash : String
  MagnetURL : String
deriving DecidableEq, Repr

namespace Imdb2Torrent

/-! ## String helpers modelling the `strings` package functions used -/

/-- Model of `strings.Contains` on character lists: some suffix of `s`
starts with `pat`. -/
def containsSub (pat : List Char) : List Char → Bool
  | [] => pat.isEmpty
  | c :: rest => pat.isPrefixOf (c :: rest) || containsSub pat rest

/-- Model of `strings.Contains` on strings. -/
def containsStr (s pat : String) : Bool :=
  containsSub pat.data s.data

/-- Model of `strings.TrimPrefix`: drop `pat` when it is a prefix. -/
def trimPrefixL (pat l : List Char) : List Char :=
  if pat.isPrefixOf l then l.drop pat.length else l

/-- Model of `strings.TrimSuffix`: drop `pat` when it is a suffix. -/
def trimSuffixL (pat l : List Char) : List Char :=
  if pat.isSuffixOf l then l.take (l.length - pat.length) else l

/-- Model of `strings.Trim(s, cutset)` for a single-character cutset:
remove all leading and trailing occurrences of `ch`. -/
def trimCharL (ch : Char) (l : List Char) : List Char :=
  ((l.dropWhile (· = ch)).reverse.dropWhile (· = ch)).reverse

/-- The ASCII apostrophe character (the cutset of the `strings.Trim` call
on the regex match for the magnet link). -/
def squote : Char := Char.ofNat 39

/-- Model of `strings.ToUpper` on one ASCII character (all data reaching
the call sites is ASCII; on ASCII Go and this model agree). -/
def upChar (c : Char) : Char :=
  if 97 ≤ c.toNat ∧ c.toNat ≤ 122 then Char.ofNat (c.toNat - 32) else c

/-- Model of `strings.ToUpper` on a character list. -/
def toUpperL (l : List Char) : List Char := l.map upChar

/-- Model of `strings.Index`: index of the first occurrence of `pat`, or
`none` (Go: `-1`). -/
def indexOfSub (pat : List Char) : List Char → Option Nat
  | [] => if pat.isEmpty then some 0 else none
  | c :: rest =>
    if pat.isPrefixOf (c :: rest) then some 0
    else (indexOfSub pat rest).map (· + 1)

/-- Fuel-driven worker for `strings.ReplaceAll` with pattern `p :: ps`;
the fuel is always instantiated with the length of the list, which
suffices because every step consumes at least one character. -/
def replaceAllAux (p : Char) (ps rep : List Char) : Nat → List Char → List Char
  | 0, l => l
  | _ + 1, [] => []
  | fuel + 1, c :: rest =>
    if c = p && ps.isPrefixOf rest then
      rep ++ replaceAllAux p ps rep fuel (rest.drop ps.length)
    else
      c :: replaceAllAux p ps rep fuel rest

/-- Model of `strings.ReplaceAll` with a non-empty pattern `p :: ps`,
replacing left-to-right, non-overlapping. -/
def replaceAllL (p : Char) (ps rep l : List Char) : List Char :=
  replaceAllAux p ps rep l.length l

/-! ## Regex models

The two info-hash patterns `btih:.+?&` and `btih:.+?\x26dn=`
(client.go:17, the ibit file line 21) share the shape: literal `btih:`,
then a non-greedy run of at least one non-newline character, then a
literal tail.  `dotPlusThen` finds the shortest such run; `findBtih`
scans for the leftmost start position admitting a complete match, which
is RE2's leftmost-match rule for this pattern shape. -/

/-- Shortest non-empty run of non-newline characters followed by the
literal `tail`; returns the consumed characters (run plus tail). -/
def dotPlusThen (tail : List Char) : List Char → Option (List Char)
  | [] => none
  | c :: rest =>
    if c = Char.ofNat 10 then none
    else if tail.isPrefixOf rest then some (c :: tail)
    else
      match dotPlusThen tail rest with
      | some r => some (c :: r)
      | none => none

/-- Leftmost match of the pattern `btih:` + `.+?` + `tail`; returns the
full matched text (Go: `regexp.Find`). -/
def findBtih (tail : List Char) : List Char → Option (List Char)
  | [] => none
  | c :: rest =>
    if ("btih:".data).isPrefixOf (c :: rest) then
      match dotPlusThen tail ((c :: rest).drop 5) with
      | some r => some ("btih:".data ++ r)
      | none => findBtih tail rest
    else findBtih tail rest

/-- The literal tail `\x26dn=` of the alternate (escaped) info-hash
pattern (seven characters). -/
def escDn : List Char := [Char.ofNat 92, 'x', '2', '6', 'd', 'n', '=']

/-- The literal `\x26tr=` searched with `strings.Index` when
reconstructing the magnet URL (ibit file line 183). -/
def escTr : List Char := [Char.ofNat 92, 'x', '2', '6', 't', 'r', '=']

/-- The literal `\x26` replaced by `&` in the magnet tail (line 189). -/
def escAmp : List Char := [Char.ofNat 92, 'x', '2', '6']

/-! ## Model of `url.QueryEscape` (ASCII level)

Go escapes the UTF-8 bytes; this model escapes characters, which agrees
with Go on ASCII input.  Unreserved characters (letters, digits, `-`,
`_`, `.`, `~`) stay, a space becomes `+`, anything else is
percent-encoded with uppercase hex. -/

def hexDigitUpper (n : Nat) : Char :=
  "0123456789ABCDEF".data.getD n '0'

def queryUnreserved (c : Char) : Bool :=
  (65 ≤ c.toNat && c.toNat ≤ 90) || (97 ≤ c.toNat && c.toNat ≤ 122) ||
  (48 ≤ c.toNat && c.toNat ≤ 57) || c = '-' || c = '_' || c = '.' || c = '~'

def queryEscapeChar (c : Char) : List Char :=
  if queryUnreserved c then [c]
  else if c = ' ' then ['+']
  else ['%', hexDigitUpper (c.toNat / 16 % 16), hexDigitUpper (c.toNat % 16)]

def queryEscape (s : String) : String :=
  String.mk (s.data.map queryEscapeChar).flatten

/-! ## Quality classification (ibit file lines 149-167) -/

/-- Base quality selection: the `if/else if` chain on substring tests of
the magnet string; absence of all three markers yields `none`
(`continue`, i.e. the page is skipped). -/
def baseQuality (magnet : String) : Option String :=
  if containsStr magnet "720p" then some "720p"
  else if containsStr magnet "1080p" then some "1080p"
  else if containsStr magnet "2160p" then some "2160p"
  else none

/-- Full quality classification: base quality, then the `10bit` suffix
(line 160) and the cam-release warning suffix (line 165). -/
def classifyQuality (magnet : String) : Option String :=
  match baseQuality magnet with
  | none => none
  | some q0 =>
    let q1 := if containsStr magnet "10bit" then q0 ++ " 10bit" else q0
    let q2 := if containsStr magnet "HDCAM" then q1 ++ " (⚠️cam)" else q1
    some q2

/-! ## Per-page processing (ibit file lines 127-207) -/

/-- What the world delivers for one successfully fetched detail page:
the raw text matched by `regexMagnet` in the body (possibly empty when
the regex found nothing) and the title text found in the DOM. -/
structure PageData where
  magnetRaw : String
  title : String
deriving DecidableEq, Repr

/-- Processing of one fetched detail page: trim the magnet match, check
magnet and title non-empty, classify quality, extract the info-hash with
the two-tier strategy, and build the `Result`; `none` models `continue`
(the page is skipped). -/
def processPage (pd : PageData) : Option Result :=
  let magnet := String.mk (trimCharL squote pd.magnetRaw.data)
  if magnet = "" then none
  else if pd.title = "" then none
  else
    match classifyQuality magnet with
    | none => none
    | some quality =>
      let m1 := (findBtih ['&'] magnet.data).getD []
      let ih1 := toUpperL (trimSuffixL ['&'] (trimPrefixL "btih:".data m1))
      if ih1 ≠ [] then
        some ⟨pd.title, quality, String.mk ih1, magnet⟩
      else
        let m2 := (findBtih escDn magnet.data).getD []
        let ih2 :=
          toUpperL (replaceAllL '-' [] []
            (trimSuffixL escDn (trimPrefixL "btih:".data m2)))
        if ih2 = [] then none
        else
          match indexOfSub escTr magnet.data with
          | none => none
          | some idx =>
            let magnetTail := replaceAllL (Char.ofNat 92) ['x', '2', '6'] ['&'] (magnet.data.drop idx)
            let magnet2 := String.mk
              ("magnet:?xt=urn:btih:".data ++ ih2 ++ "&dn=".data ++
                (queryEscape pd.title).data ++ magnetTail)
            some ⟨pd.title, quality, String.mk ih2, magnet2⟩

/-! ## Cache entry serialization (cache.go)

Modelled from the spec: the Go implementation delegates the byte format
to `encoding/gob` (an external library, not part of this repository);
per the spec it is "a self-describing binary encoding of
`{created: timestamp, results: list of Result}`" that "must round-trip
exactly through encode→decode" and whose "decode of foreign/corrupted
bytes must fail cleanly".  The model below is a concrete self-describing
byte encoding with exactly those properties: naturals as a length byte
followed by little-endian base-256 digits, strings as a character count
followed by character codes, a `Result` as its four strings, and the
entry as the creation timestamp followed by a counted list of results.
-/

/-- Little-endian base-256 digits of a natural number (empty for 0),
computed with fuel (always called with fuel = the number itself, which
suffices since the value shrinks by a factor of 256 per step). -/
def natDigitsAux : Nat → Nat → List Nat
  | 0, _ => []
  | fuel + 1, n => if n = 0 then [] else n % 256 :: natDigitsAux fuel (n / 256)

def natDigits (n : Nat) : List Nat := natDigitsAux n n

/-- Value of little-endian base-256 digits. -/
def digitsVal : List Nat → Nat
  | [] => 0
  | d :: ds => d + 256 * digitsVal ds

/-- Encode a natural number: digit count, then the digits. -/
def encNat (n : Nat) : List Nat := (natDigits n).length :: natDigits n

/-- Decode a natural number; fails on truncated input. -/
def decNat : List Nat → Option (Nat × List Nat)
  | [] => none
  | len :: rest =>
    if len ≤ rest.length then some (digitsVal (rest.take len), rest.drop len)
    else none

/-- Encode a string: character count, then the character codes. -/
def encStr (s : String) : List Nat :=
  encNat s.data.length ++ s.data.map Char.toNat

/-- Decode a string; fails on truncated input. -/
def decStr (bs : List Nat) : Option (String × List Nat) :=
  match decNat bs with
  | none => none
  | some (n, rest) =>
    if n ≤ rest.length then
      some (String.mk ((rest.take n).map Char.ofNat), rest.drop n)
    else none

/-- Encode one `Result` as its four fields in order. -/
def encResult (r : Result) : List Nat :=
  encStr r.Title ++ encStr r.Quality ++ encStr r.InfoHash ++ encStr r.MagnetURL

/-- Decode one `Result`. -/
def decResult (bs : List Nat) : Option (Result × List Nat) :=
  match decStr bs with
  | none => none
  | some (t, bs1) =>
    match decStr bs1 with
    | none => none
    | some (q, bs2) =>
      match decStr bs2 with
      | none => none
      | some (ih, bs3) =>
        match decStr bs3 with
        | none => none
        | some (m, bs4) => some (⟨t, q, ih, m⟩, bs4)

/-- Decode a counted list of results. -/
def decResults : Nat → List Nat → Option (List Result × List Nat)
  | 0, bs => some ([], bs)
  | n + 1, bs =>
    match decResult bs with
    | none => none
    | some (r, rest) =>
      match decResults n rest with
      | none => none
      | some (rs, rest2) => some (r :: rs, rest2)

/-- Model of `NewCacheEntry` (cache.go:17): serialize a `cacheEntry`
holding the creation time (here passed explicitly instead of
`time.Now()`) and the result list.  The Go encoder can only fail on
encoder-internal errors, which cannot occur for this fixed type, so the
model is total. -/
def NewCacheEntry (created : Nat) (data : List Result) : List Nat :=
  encNat created ++ encNat data.length ++ (data.map encResult).flatten

/-- Model of `FromCacheEntry` (cache.go:31): decode the bytes back into
the result list and creation time; truncated or corrupted bytes yield an
error value. -/
def FromCacheEntry (bs : List Nat) : Except String (List Result × Nat) :=
  match decNat bs with
  | none => Except.error "Couldn't decode cacheEntry"
  | some (created, rest) =>
    match decNat rest with
    | none => Except.error "Couldn't decode cacheEntry"
    | some (n, rest2) =>
      match decResults n rest2 with
      | none => Except.error "Couldn't decode cacheEntry"
      | some (rs, _) => Except.ok (rs, created)

/-! ## The ibit client `Check` (the ibit source file)

The impure ingredients of one `Check` call are collected in an
`IbitWorld`: the cache content under the call's key, the current time
and configured TTL, the outcome of fetching/parsing the search page
(either a call-level error or the list of row `href` attributes, `none`
for a row without one), and the outcome of each detail-page fetch
(`none` for any of the per-page failures that occur before the magnet
regex runs: `replaceURL` failure, transport error, non-200 status,
body-read failure). -/

structure IbitWorld where
  baseURL : String
  cacheVal : Option (List Nat)
  now : Nat
  cacheAge : Int
  search : Except String (List (Option String))
  page : String → Option PageData

/-- Cache read phase (ibit file lines 58-71): a decodable, non-expired
entry is a hit; a missing key, undecodable bytes, or an expired entry is
a miss. -/
def cacheHit (cacheVal : Option (List Nat)) (now : Nat) (cacheAge : Int) :
    Option (List Result) :=
  match cacheVal with
  | none => none
  | some gob =>
    match FromCacheEntry gob with
    | Except.error _ => none
    | Except.ok (torrentList, created) =>
      if (now : Int) - (created : Int) < cacheAge then some torrentList
      else none

/-- Torrent-page URL collection (lines 91-98): rows without an `href`,
or with an empty one, are skipped; the configured base URL is prepended
to the rest. -/
def mkUrls (baseURL : String) (rows : List (Option String)) : List String :=
  rows.filterMap fun h =>
    match h with
    | none => none
    | some href => if href = "" then none else some (baseURL ++ href)

/-- The sequential detail-page loop (lines 107-208): failed fetches and
skipped pages contribute nothing; successfully processed pages append
their `Result` in page order. -/
def ibitLoop (page : String → Option PageData) : List String → List Result
  | [] => []
  | u :: rest =>
    match page u with
    | none => ibitLoop page rest
    | some pd =>
      match processPage pd with
      | none => ibitLoop page rest
      | some r => r :: ibitLoop page rest

/-- The live-fetch part of `Check` (lines 73-224), entered on a cache
miss.  Returns the call result together with the cache write performed
(`none` when nothing is written).  A search-page failure is a call-level
error with no write; zero collected URLs returns `(nil, nil)` with no
write (line 100-102); otherwise the loop output is returned and a fresh
cache entry is always written (lines 210-222; the model's encoder is
total, so the write always happens). -/
def ibitFetch (w : IbitWorld) (cacheKey : String) :
    Except String (List Result) × Option (String × List Nat) :=
  match w.search with
  | Except.error e => (Except.error e, none)
  | Except.ok rows =>
    let urls := mkUrls w.baseURL rows
    if urls.isEmpty then (Except.ok [], none)
    else
      let results := ibitLoop w.page urls
      (Except.ok results, some (cacheKey, NewCacheEntry w.now results))

/-- Model of `ibitClient.Check`: cache lookup under `imdbID + "-ibit"`,
returning a hit immediately (with no write), otherwise the live fetch. -/
def ibitCheck (w : IbitWorld) (imdbID : String) :
    Except String (List Result) × Option (String × List Nat) :=
  match cacheHit w.cacheVal w.now w.cacheAge with
  | some torrentList => (Except.ok torrentList, none)
  | none => ibitFetch w (imdbID ++ "-ibit")

/-! ## The orchestrator `Client.FindMagnets` (client.go:54-206)

One run is determined by the outcome each fast source delivers on the
shared channels and by whether/what the ibit task delivers within the
one-second grace period.  `fast` lists the three fast-source outcomes in
completion (channel-arrival) order; `ibit = none` means the grace period
elapsed before the ibit task reported, `some o` means outcome `o`
arrived in time. -/

inductive Outcome where
  | ok (results : List Result)
  | err (e : String)
deriving DecidableEq, Repr

/-- The mutable state of the collection loop (client.go:135-137). -/
structure CollectState where
  combined : List Result
  errs : List String
  dupRemovalRequired : Bool
deriving DecidableEq, Repr

/-- One iteration of the `select` collection loop (lines 140-148): an
error is appended to `errs`; a result list flips the dedup flag when
both the accumulated list and the new list are non-empty, then is
concatenated. -/
def collectStep (st : CollectState) : Outcome → CollectState
  | Outcome.err e => { st with errs := st.errs ++ [e] }
  | Outcome.ok results =>
    { st with
      combined := st.combined ++ results
      dupRemovalRequired :=
        st.dupRemovalRequired ||
          (!st.combined.isEmpty && !results.isEmpty) }

/-- The error message built at lines 178-182: a fixed prefix, then for
`i = 1..torrentSiteCount` (= 3) the segment `"i.: errs[i-1]; "`, with
the final `"; "` trimmed. -/
def errsMsg (errs : List String) : String :=
  let m := "Couldn't find torrents on any site: " ++
    "1.: " ++ errs.getD 0 "" ++ "; " ++
    "2.: " ++ errs.getD 1 "" ++ "; " ++
    "3.: " ++ errs.getD 2 "" ++ "; "
  String.mk (trimSuffixL "; ".data m.data)

/-- Duplicate removal keyed on `InfoHash` (lines 190-196): `seen` models
the `infoHashes` set; the first occurrence of a hash is kept. -/
def dedupResults (seen : List String) : List Result → List Result
  | [] => []
  | r :: rest =>
    if r.InfoHash ∈ seen then dedupResults seen rest
    else r :: dedupResults (r.InfoHash :: seen) rest

/-- The ibit collection `select` (lines 156-174): an error arriving in
time is appended to `errs`; results arriving in time go through the same
flag-and-concatenate step and clear `returnErrors`; an elapsed grace
period changes nothing. -/
def afterIbit (st : CollectState) (returnErrors : Bool) :
    Option Outcome → CollectState × Bool
  | none => (st, returnErrors)
  | some (Outcome.err e) => ({ st with errs := st.errs ++ [e] }, returnErrors)
  | some (Outcome.ok results) => (collectStep st (Outcome.ok results), false)

/-- Model of `Client.FindMagnets`: collect the three fast outcomes, set
`returnErrors` iff all three erred (line 153), run the ibit `select`,
then either return the aggregated error (lines 177-184) or the
(conditionally deduplicated) combined results (lines 186-205). -/
def FindMagnets (fast : List Outcome) (ibit : Option Outcome) :
    Except String (List Result) :=
  let st0 := fast.foldl collectStep ⟨[], [], false⟩
  let returnErrors0 := st0.errs.length == 3
  let st := (afterIbit st0 returnErrors0 ibit).1
  let returnErrors := (afterIbit st0 returnErrors0 ibit).2
  if returnErrors then Except.error (errsMsg st.errs)
  else
    Except.ok
      (if st.dupRemovalRequired then dedupResults [] st.combined
       else st.combined)

/-- The configured sources, as keyed in `GetMagnetSearchers`
(client.go:208-215). -/
def configuredSources : List String := ["YTS", "TPB", "1337x", "ibit"]

/-! ## Derived views of a run, used to state the properties -/

/-- Is an outcome a non-empty result list?  (What flips the dedup flag.) -/
def isNonEmptyOk : Outcome → Bool
  | Outcome.ok results => !results.isEmpty
  | Outcome.err _ => false

/-- Number of non-empty result lists among the outcomes. -/
def neCount (l : List Outcome) : Nat := (l.filter isNonEmptyOk).length

/-- Concatenation of all delivered result lists, in completion order. -/
def okFlat : List Outcome → List Result
  | [] => []
  | Outcome.ok results :: t => results ++ okFlat t
  | Outcome.err _ :: t => okFlat t

/-- The delivered errors, in completion order. -/
def errList : List Outcome → List String
  | [] => []
  | Outcome.ok _ :: t => errList t
  | Outcome.err e :: t => e :: errList t

/-- The outcomes actually awaited: the fast ones plus the ibit one when
it arrived within the grace period. -/
def awaited (fast : List Outcome) (ibit : Option Outcome) : List Outcome :=
  fast ++ ibit.toList

/-- Number of occurrences of a pattern in a character list (counting
every position where the pattern starts). -/
def countOcc (pat : List Char) : List Char → Nat
  | [] => 0
  | c :: rest => (if pat.isPrefixOf (c :: rest) then 1 else 0) + countOcc pat rest

/-! ## Round-trip lemmas for the cache entry serialization -/

theorem digitsVal_natDigitsAux (fuel : Nat) :
    ∀ n, n ≤ fuel → digitsVal (natDigitsAux fuel n) = n := by
  induction fuel with
  | zero =>
    intro n hn
    interval_cases n
    simp [natDigitsAux, digitsVal]
  | succ fuel ih =>
    intro n hn
    by_cases h0 : n = 0
    · simp [natDigitsAux, h0, digitsVal]
    · have hdiv : n / 256 ≤ fuel := by
        have : n / 256 < n := Nat.div_lt_self (Nat.pos_of_ne_zero h0) (by omega)
        omega
      simp only [natDigitsAux, h0, if_false, digitsVal, ih _ hdiv]
      omega

theorem digitsVal_natDigits (n : Nat) : digitsVal (natDigits n) = n :=
  digitsVal_natDigitsAux n n (Nat.le_refl n)

theorem decNat_encNat (n : Nat) (tail : List Nat) :
    decNat (encNat n ++ tail) = some (n, tail) := by
  simp only [encNat, List.cons_append, decNat]
  rw [if_pos (by simp)]
  rw [List.take_left, List.drop_left, digitsVal_natDigits]

theorem decStr_encStr (s : String) (tail : List Nat) :
    decStr (encStr s ++ tail) = some (s, tail) := by
  obtain ⟨d⟩ := s
  have hdata : (String.mk d).data = d := rfl
  simp only [encStr, hdata, List.append_assoc, decStr, decNat_encNat]
  have hlen : (List.map Char.toNat d).length = d.length := by simp
  rw [if_pos (by simp)]
  rw [← hlen, List.take_left, List.drop_left, List.map_map]
  simp [Function.comp_def, Char.ofNat_toNat]

theorem decResult_encResult (r : Result) (tail : List Nat) :
    decResult (encResult r ++ tail) = some (r, tail) := by
  obtain ⟨t, q, ih, m⟩ := r
  simp only [encResult, List.append_assoc, decResult, decStr_encStr]

theorem decResults_enc (rs : List Result) (tail : List Nat) :
    decResults rs.length ((rs.map encResult).flatten ++ tail) = some (rs, tail) := by
  induction rs with
  | nil => simp [decResults]
  | cons r rest ih =>
    simp only [List.map_cons, List.flatten_cons, List.length_cons,
      List.append_assoc, decResults, decResult_encResult, ih]

theorem fromCacheEntry_newCacheEntry (created : Nat) (rs : List Result) :
    FromCacheEntry (NewCacheEntry created rs) = Except.ok (rs, created) := by
  have h : NewCacheEntry created rs =
      encNat created ++ (encNat rs.length ++ ((rs.map encResult).flatten ++ [])) := by
    simp [NewCacheEntry, List.append_assoc]
  rw [FromCacheEntry, h, decNat_encNat]
  simp only []
  rw [decNat_encNat]
  simp only []
  rw [decResults_enc]

/-! ## Helper lemmas about the collection loop -/

theorem strMkData (s : String) : String.mk s.data = s := by
  obtain ⟨d⟩ := s
  rfl

theorem neCount_cons (o : Outcome) (t : List Outcome) :
    neCount (o :: t) = (if isNonEmptyOk o then 1 else 0) + neCount t := by
  simp only [neCount, List.filter_cons]
  by_cases h : isNonEmptyOk o = true
  · simp [h]
    omega
  · simp [h]

theorem neCount_nil : neCount [] = 0 := rfl

theorem combined_foldl (l : List Outcome) (st : CollectState) :
    (l.foldl collectStep st).combined = st.combined ++ okFlat l := by
  induction l generalizing st with
  | nil => simp [okFlat]
  | cons o t ih =>
    cases o with
    | ok results => simp [collectStep, okFlat, ih, List.append_assoc]
    | err e => simp [collectStep, okFlat, ih]

theorem errs_foldl (l : List Outcome) (st : CollectState) :
    (l.foldl collectStep st).errs = st.errs ++ errList l := by
  induction l generalizing st with
  | nil => simp [errList]
  | cons o t ih =>
    cases o with
    | ok results => simp [collectStep, errList, ih]
    | err e => simp [collectStep, errList, ih, List.append_assoc]

theorem dup_foldl (l : List Outcome) (st : CollectState) :
    (l.foldl collectStep st).dupRemovalRequired = true ↔
      st.dupRemovalRequired = true ∨
        (st.combined ≠ [] ∧ 1 ≤ neCount l) ∨ 2 ≤ neCount l := by
  induction l generalizing st with
  | nil =>
    simp [neCount_nil]
  | cons o t ih =>
    cases o with
    | err e =>
      rw [List.foldl_cons]
      rw [show collectStep st (Outcome.err e) = { st with errs := st.errs ++ [e] } from rfl]
      rw [ih]
      simp [neCount_cons, isNonEmptyOk]
    | ok results =>
      rw [List.foldl_cons]
      rw [show collectStep st (Outcome.ok results) =
        { st with
          combined := st.combined ++ results
          dupRemovalRequired :=
            st.dupRemovalRequired || (!st.combined.isEmpty && !results.isEmpty) } from rfl]
      rw [ih]
      by_cases hr : results = []
      · subst hr
        simp [neCount_cons, isNonEmptyOk]
      · have hne : isNonEmptyOk (Outcome.ok results) = true := by
          simp [isNonEmptyOk, hr]
        rw [neCount_cons, if_pos hne]
        have hca : st.combined ++ results ≠ [] := by
          simp [hr]
        have hflag :
            (st.dupRemovalRequired || (!st.combined.isEmpty && !results.isEmpty)) = true ↔
              st.dupRemovalRequired = true ∨ st.combined ≠ [] := by
          simp only [Bool.or_eq_true, Bool.and_eq_true, Bool.not_eq_true',
            List.isEmpty_eq_false]
          constructor
          · rintro (h | ⟨h1, _⟩)
            · exact Or.inl h
            · exact Or.inr h1
          · rintro (h | h)
            · exact Or.inl h
            · exact Or.inr ⟨h, hr⟩
        constructor
        · rintro (hd | ⟨_, hn⟩ | hn)
          · rcases hflag.mp hd with h | h
            · exact Or.inl h
            · exact Or.inr (Or.inl ⟨h, by omega⟩)
          · exact Or.inr (Or.inr (by omega))
          · exact Or.inr (Or.inr (by omega))
        · rintro (hd | ⟨hcr, _⟩ | hn)
          · exact Or.inl (hflag.mpr (Or.inl hd))
          · exact Or.inl (hflag.mpr (Or.inr hcr))
          · exact Or.inr (Or.inl ⟨hca, by omega⟩)

/-- Did the ibit task deliver a result list within the grace period? -/
def ibitDeliveredOk : Option Outcome → Bool
  | some (Outcome.ok _) => true
  | _ => false

theorem afterIbit_state (st : CollectState) (re : Bool) (ibit : Option Outcome) :
    (afterIbit st re ibit).1 = ibit.toList.foldl collectStep st := by
  cases ibit with
  | none => rfl
  | some o => cases o <;> rfl

theorem afterIbit_flag (st : CollectState) (re : Bool) (ibit : Option Outcome) :
    (afterIbit st re ibit).2 = (re && !ibitDeliveredOk ibit) := by
  cases ibit with
  | none => simp [afterIbit, ibitDeliveredOk]
  | some o =>
    cases o with
    | ok results => simp [afterIbit, ibitDeliveredOk]
    | err e => simp [afterIbit, ibitDeliveredOk]

/-- The final collection state of a run is the fold of `collectStep` over
all awaited outcomes. -/
theorem findMagnets_state (fast : List Outcome) (ibit : Option Outcome) :
    (afterIbit (fast.foldl collectStep ⟨[], [], false⟩)
        ((fast.foldl collectStep ⟨[], [], false⟩).errs.length == 3) ibit).1 =
      (awaited fast ibit).foldl collectStep ⟨[], [], false⟩ := by
  rw [afterIbit_state, awaited, List.foldl_append]

/-! ## Lemmas about `errsMsg` -/

theorem errsMsg_eq (e1 e2 e3 : String) (rest : List String) :
    errsMsg (e1 :: e2 :: e3 :: rest) =
      "Couldn't find torrents on any site: " ++ "1.: " ++ e1 ++ "; " ++
        "2.: " ++ e2 ++ "; " ++ "3.: " ++ e3 := by
  unfold errsMsg
  simp only [List.getD_cons_zero, List.getD_cons_succ]
  have hM :
      ("Couldn't find torrents on any site: " ++ "1.: " ++ e1 ++ "; " ++
          "2.: " ++ e2 ++ "; " ++ "3.: " ++ e3 ++ "; ").data =
        ("Couldn't find torrents on any site: " ++ "1.: " ++ e1 ++ "; " ++
          "2.: " ++ e2 ++ "; " ++ "3.: " ++ e3).data ++ "; ".data := by
    simp [String.data_append]
  rw [hM, trimSuffixL]
  rw [if_pos (List.isSuffixOf_iff_suffix.mpr (List.suffix_append _ _))]
  rw [List.length_append]
  have hsub :
      ∀ x y : Nat, x + y - y = x := by omega
  rw [hsub, List.take_left, strMkData]

/-! ## Lemmas about duplicate removal -/

theorem dedupResults_sublist (seen : List String) (l : List Result) :
    (dedupResults seen l).Sublist l := by
  induction l generalizing seen with
  | nil => simp [dedupResults]
  | cons r rest ih =>
    rw [dedupResults]
    by_cases h : r.InfoHash ∈ seen
    · rw [if_pos h]
      exact (ih seen).trans (List.sublist_cons_self r rest)
    · rw [if_neg h]
      exact List.Sublist.cons₂ r (ih (r.InfoHash :: seen))

theorem dedupResults_not_seen (seen : List String) (l : List Result) :
    ∀ r ∈ dedupResults seen l, r.InfoHash ∉ seen := by
  induction l generalizing seen with
  | nil => simp [dedupResults]
  | cons a rest ih =>
    intro r hr
    rw [dedupResults] at hr
    by_cases h : a.InfoHash ∈ seen
    · rw [if_pos h] at hr
      exact ih seen r hr
    · rw [if_neg h] at hr
      rcases List.mem_cons.mp hr with rfl | hr2
      · exact h
      · have := ih (a.InfoHash :: seen) r hr2
        intro hc
        exact this (List.mem_cons_of_mem _ hc)

theorem dedupResults_pairwise (seen : List String) (l : List Result) :
    (dedupResults seen l).Pairwise (fun a b => a.InfoHash ≠ b.InfoHash) := by
  induction l generalizing seen with
  | nil => simp [dedupResults]
  | cons a rest ih =>
    rw [dedupResults]
    by_cases h : a.InfoHash ∈ seen
    · rw [if_pos h]
      exact ih seen
    · rw [if_neg h]
      refine List.Pairwise.cons ?_ (ih (a.InfoHash :: seen))
      intro b hb
      have := dedupResults_not_seen (a.InfoHash :: seen) rest b hb
      intro hc
      exact this (hc ▸ List.mem_cons_self _ _)

theorem dedupResults_find_first (seen : List String) (l : List Result) :
    ∀ r ∈ dedupResults seen l,
      l.find? (fun x => x.InfoHash == r.InfoHash) = some r := by
  induction l generalizing seen with
  | nil => simp [dedupResults]
  | cons a rest ih =>
    intro r hr
    rw [dedupResults] at hr
    by_cases h : a.InfoHash ∈ seen
    · rw [if_pos h] at hr
      have hrs := dedupResults_not_seen seen rest r hr
      have hne : a.InfoHash ≠ r.InfoHash := by
        intro hc
        exact hrs (hc ▸ h)
      rw [List.find?_cons_of_neg _ (by simpa using hne)]
      exact ih seen r hr
    · rw [if_neg h] at hr
      rcases List.mem_cons.mp hr with rfl | hr2
      · rw [List.find?_cons_of_pos _ (by simp)]
      · have hrs := dedupResults_not_seen (a.InfoHash :: seen) rest r hr2
        have hne : a.InfoHash ≠ r.InfoHash := by
          intro hc
          exact hrs (hc ▸ List.mem_cons_self _ _)
        rw [List.find?_cons_of_neg _ (by simpa using hne)]
        exact ih (a.InfoHash :: seen) r hr2

theorem dedupResults_covers (seen : List String) (l : List Result) :
    ∀ r ∈ l, r.InfoHash ∈ seen ∨
      ∃ r2 ∈ dedupResults seen l, r2.InfoHash = r.InfoHash := by
  induction l generalizing seen with
  | nil => simp
  | cons a rest ih =>
    intro r hr
    rw [dedupResults]
    by_cases h : a.InfoHash ∈ seen
    · rw [if_pos h]
      rcases List.mem_cons.mp hr with rfl | hr2
      · exact Or.inl h
      · exact ih seen r hr2
    · rw [if_neg h]
      rcases List.mem_cons.mp hr with rfl | hr2
      · exact Or.inr ⟨r, List.mem_cons_self _ _, rfl⟩
      · rcases ih (a.InfoHash :: seen) r hr2 with hs | ⟨r2, hmem, heq⟩
        · rcases List.mem_cons.mp hs with heq2 | hs2
          · exact Or.inr ⟨a, List.mem_cons_self _ _, heq2.symm⟩
          · exact Or.inl hs2
        · exact Or.inr ⟨r2, List.mem_cons_of_mem _ hmem, heq⟩

/-! ## Lemmas about `okFlat`, `errList` and `neCount` -/

theorem okFlat_append (l1 l2 : List Outcome) :
    okFlat (l1 ++ l2) = okFlat l1 ++ okFlat l2 := by
  induction l1 with
  | nil => simp [okFlat]
  | cons o t ih => cases o <;> simp [okFlat, ih, List.append_assoc]

theorem errList_nil_of_all_ok (l : List Outcome)
    (h : ∀ o ∈ l, ∃ rs, o = Outcome.ok rs) : errList l = [] := by
  induction l with
  | nil => rfl
  | cons o t ih =>
    obtain ⟨rs, rfl⟩ := h o (List.mem_cons_self _ _)
    exact ih fun o ho => h o (List.mem_cons_of_mem _ ho)

theorem neCount_errList_le (l : List Outcome) :
    neCount l + (errList l).length ≤ l.length := by
  induction l with
  | nil => simp [neCount_nil, errList]
  | cons o t ih =>
    rw [neCount_cons]
    cases o with
    | ok results =>
      simp only [errList, List.length_cons]
      by_cases h : isNonEmptyOk (Outcome.ok results) = true
      · rw [if_pos h]
        omega
      · rw [if_neg h]
        omega
    | err e =>
      simp only [errList, List.length_cons, isNonEmptyOk]
      simp only [if_neg (by simp : ¬(false = true))]
      omega

theorem neCount_pos_of_mem (l : List Outcome) (rs : List Result)
    (hmem : Outcome.ok rs ∈ l) (hne : rs ≠ []) : 1 ≤ neCount l := by
  induction l with
  | nil => simp at hmem
  | cons o t ih =>
    rw [neCount_cons]
    rcases List.mem_cons.mp hmem with rfl | h2
    · rw [if_pos (by simp [isNonEmptyOk, hne])]
      omega
    · have := ih h2
      by_cases ho : isNonEmptyOk o = true
      · rw [if_pos ho]; omega
      · rw [if_neg ho]; omega

theorem okFlat_nil_of_neCount_zero (l : List Outcome)
    (h : neCount l = 0) : okFlat l = [] := by
  induction l with
  | nil => rfl
  | cons o t ih =>
    rw [neCount_cons] at h
    cases o with
    | err e =>
      rw [okFlat]
      exact ih (by omega)
    | ok results =>
      rw [okFlat]
      by_cases hr : results = []
      · rw [hr, List.nil_append]
        exact ih (by omega)
      · rw [if_pos (by simp [isNonEmptyOk, hr])] at h
        omega

theorem okFlat_single (l : List Outcome) (rs : List Result)
    (hle : neCount l ≤ 1) (hmem : Outcome.ok rs ∈ l) (hne : rs ≠ []) :
    okFlat l = rs := by
  induction l with
  | nil => simp at hmem
  | cons o t ih =>
    rw [neCount_cons] at hle
    cases o with
    | err e =>
      rw [okFlat]
      rcases List.mem_cons.mp hmem with heq | h2
      · exact absurd heq (by simp)
      · exact ih (by omega) h2
    | ok a =>
      rw [okFlat]
      rcases List.mem_cons.mp hmem with heq | h2
      · have : a = rs := by injection heq with h3; exact h3.symm
        subst this
        rw [if_pos (by simp [isNonEmptyOk, hne])] at hle
        rw [okFlat_nil_of_neCount_zero t (by omega), List.append_nil]
      · have h1t : 1 ≤ neCount t := neCount_pos_of_mem t rs h2 hne
        by_cases ha : a = []
        · rw [ha, List.nil_append]
          exact ih (by omega) h2
        · rw [if_pos (by simp [isNonEmptyOk, ha])] at hle
          omega

/-! ## Lemmas about the uppercased info-hash -/

theorem upChar_not_lower (c : Char) :
    ¬(97 ≤ (upChar c).toNat ∧ (upChar c).toNat ≤ 122) := by
  unfold upChar
  by_cases h : 97 ≤ c.toNat ∧ c.toNat ≤ 122
  · rw [if_pos h]
    have hv : (c.toNat - 32).isValidChar := Or.inl (by omega)
    have heq : (Char.ofNat (c.toNat - 32)).toNat = c.toNat - 32 := by
      unfold Char.ofNat
      rw [dif_pos hv]
      unfold Char.ofNatAux
      simp [Char.toNat, UInt32.toNat, UInt32.ofNatCore]
    rw [heq]
    omega
  · rw [if_neg h]
    exact h

theorem mem_toUpperL_not_lower {c : Char} {l : List Char}
    (h : c ∈ toUpperL l) : ¬(97 ≤ c.toNat ∧ c.toNat ≤ 122) := by
  obtain ⟨c0, _, rfl⟩ := List.mem_map.mp h
  exact upChar_not_lower c0

theorem strMk_ne_empty {l : List Char} (h : l ≠ []) : String.mk l ≠ "" := by
  intro hc
  apply h
  have := congrArg String.data hc
  simpa using this

/-- Invariant of the page processing: a constructed `Result` always has
a non-empty info-hash, and its info-hash contains no lowercase ASCII
letter (it went through the `strings.ToUpper` call). -/
theorem processPage_invariant (pd : PageData) (r : Result)
    (h : processPage pd = some r) :
    r.InfoHash ≠ "" ∧
      ∀ c ∈ r.InfoHash.data, ¬(97 ≤ c.toNat ∧ c.toNat ≤ 122) := by
  simp only [processPage] at h
  split at h
  · exact absurd h (by simp)
  split at h
  · exact absurd h (by simp)
  split at h
  · exact absurd h (by simp)
  split at h
  · -- tier-1 branch
    rename_i hne
    have hr := Option.some.inj h
    subst hr
    refine ⟨strMk_ne_empty hne, ?_⟩
    intro c hc
    exact mem_toUpperL_not_lower hc
  · split at h
    · exact absurd h (by simp)
    · rename_i hne2
      split at h
      · exact absurd h (by simp)
      · -- tier-2 branch
        have hr := Option.some.inj h
        subst hr
        refine ⟨strMk_ne_empty hne2, ?_⟩
        intro c hc
        exact mem_toUpperL_not_lower hc

/-! ## Lemmas about the ibit loop and the cache write -/

theorem mem_ibitLoop (page : String → Option PageData) (urls : List String)
    (r : Result) (h : r ∈ ibitLoop page urls) :
    ∃ pd, processPage pd = some r := by
  induction urls with
  | nil => simp [ibitLoop] at h
  | cons u rest ih =>
    rw [ibitLoop] at h
    rcases hp : page u with _ | pd
    · rw [hp] at h
      exact ih h
    · rw [hp] at h
      change r ∈ (match processPage pd with
        | none => ibitLoop page rest
        | some r2 => r2 :: ibitLoop page rest) at h
      rcases hq : processPage pd with _ | r2
      · rw [hq] at h
        exact ih h
      · rw [hq] at h
        rcases List.mem_cons.mp h with rfl | h2
        · exact ⟨pd, hq⟩
        · exact ih h2

/-- Any cache write performed by `ibitCheck` stores, under the key
`imdbID ++ "-ibit"`, a fresh entry encoding the results produced by the
page loop of this very call. -/
theorem ibitCheck_write (w : IbitWorld) (imdbID k : String) (bs : List Nat)
    (h : (ibitCheck w imdbID).2 = some (k, bs)) :
    ∃ rs, k = imdbID ++ "-ibit" ∧ bs = NewCacheEntry w.now rs ∧
      ∀ r ∈ rs, ∃ pd, processPage pd = some r := by
  unfold ibitCheck at h
  rcases hc : cacheHit w.cacheVal w.now w.cacheAge with _ | torrentList
  · rw [hc] at h
    unfold ibitFetch at h
    rcases hs : w.search with e | rows
    · rw [hs] at h
      simp at h
    · rw [hs] at h
      simp only at h
      split at h
      · simp at h
      · simp only [Option.some.injEq, Prod.mk.injEq] at h
        obtain ⟨hk, hbs⟩ := h
        exact ⟨ibitLoop w.page (mkUrls w.baseURL rows), hk.symm, hbs.symm,
          fun r hr => mem_ibitLoop _ _ r hr⟩
  · rw [hc] at h
    simp at h

/-! ## Characterization of the cache read phase -/

theorem cacheHit_fresh (cv : Option (List Nat)) (now : Nat) (age : Int)
    (gob : List Nat) (torrentList : List Result) (created : Nat)
    (h1 : cv = some gob)
    (h2 : FromCacheEntry gob = Except.ok (torrentList, created))
    (h3 : (now : Int) - (created : Int) < age) :
    cacheHit cv now age = some torrentList := by
  subst h1
  simp only [cacheHit, h2]
  rw [if_pos h3]

theorem cacheHit_stale (cv : Option (List Nat)) (now : Nat) (age : Int)
    (gob : List Nat) (torrentList : List Result) (created : Nat)
    (h1 : cv = some gob)
    (h2 : FromCacheEntry gob = Except.ok (torrentList, created))
    (h3 : ¬((now : Int) - (created : Int) < age)) :
    cacheHit cv now age = none := by
  subst h1
  simp only [cacheHit, h2]
  rw [if_neg h3]

theorem cacheHit_badDecode (cv : Option (List Nat)) (now : Nat) (age : Int)
    (gob : List Nat) (e : String)
    (h1 : cv = some gob) (h2 : FromCacheEntry gob = Except.error e) :
    cacheHit cv now age = none := by
  subst h1
  simp only [cacheHit, h2]

/-! ## Concrete fixtures used by witnesses and counterexamples -/

/-- A sample result. -/
def rA : Result := ⟨"A", "720p", "AAAA", "magnet:a"⟩

/-- A second sample result with a distinct info-hash. -/
def rB : Result := ⟨"B", "1080p", "BBBB", "magnet:b"⟩

/-- A result sharing `rA`'s info-hash but differing elsewhere. -/
def rA2 : Result := ⟨"C", "2160p", "AAAA", "magnet:c"⟩

/-! ## More counting helpers -/

theorem neCount_append (l1 l2 : List Outcome) :
    neCount (l1 ++ l2) = neCount l1 + neCount l2 := by
  simp [neCount, List.filter_append]

theorem exists_ok_of_neCount_pos (l : List Outcome) (h : 1 ≤ neCount l) :
    ∃ rs, Outcome.ok rs ∈ l ∧ rs ≠ [] := by
  induction l with
  | nil => simp [neCount_nil] at h
  | cons o t ih =>
    rw [neCount_cons] at h
    by_cases ho : isNonEmptyOk o = true
    · cases o with
      | ok results =>
        refine ⟨results, List.mem_cons_self _ _, ?_⟩
        simpa [isNonEmptyOk, List.isEmpty_iff] using ho
      | err e => simp [isNonEmptyOk] at ho
    · rw [if_neg ho] at h
      obtain ⟨rs, hmem, hne⟩ := ih (by omega)
      exact ⟨rs, List.mem_cons_of_mem _ hmem, hne⟩

/-- A cache miss followed by a successfully parsed search page with at
least one collected link returns the loop results and writes the fresh
entry. -/
theorem ibitCheck_live (w : IbitWorld) (imdbID : String)
    (rows : List (Option String))
    (hmiss : cacheHit w.cacheVal w.now w.cacheAge = none)
    (hs : w.search = Except.ok rows)
    (hurls : mkUrls w.baseURL rows ≠ []) :
    ibitCheck w imdbID =
      (Except.ok (ibitLoop w.page (mkUrls w.baseURL rows)),
       some (imdbID ++ "-ibit",
         NewCacheEntry w.now (ibitLoop w.page (mkUrls w.baseURL rows)))) := by
  unfold ibitCheck
  rw [hmiss]
  unfold ibitFetch
  rw [hs]
  simp only [List.isEmpty_iff, hurls, if_false]

/-! ## Error-count helpers for the orchestrator -/

theorem errList_length_le (l : List Outcome) :
    (errList l).length ≤ l.length := by
  induction l with
  | nil => simp [errList]
  | cons o t ih =>
    cases o with
    | ok results =>
      rw [errList]
      simpa using Nat.le_succ_of_le ih
    | err e =>
      rw [errList]
      simpa using ih

theorem errList_length_lt (l : List Outcome) (rs : List Result)
    (h : Outcome.ok rs ∈ l) : (errList l).length < l.length := by
  induction l with
  | nil => simp at h
  | cons o t ih =>
    cases o with
    | ok results =>
      rw [errList]
      have := errList_length_le t
      simp only [List.length_cons]
      omega
    | err e =>
      rw [errList]
      have hmem : Outcome.ok rs ∈ t := by
        rcases List.mem_cons.mp h with heq | h2
        · exact absurd heq (by simp)
        · exact h2
      have := ih hmem
      simp only [List.length_cons]
      omega

/-! ## The claims -/

/-- C3: for every timestamp and every list of results (including the
empty list), decoding the bytes produced by `NewCacheEntry` via
`FromCacheEntry` reproduces the result list exactly (equality on all
four fields of every element, i.e. `Result` equality) and the creation
timestamp exactly (the model's resolution); decoding truncated or
corrupted bytes (the empty byte string, a malformed length header, and a
strict prefix of a valid entry) returns an error value rather than
diverging. -/
theorem C3_cacheEntry_roundtrip :
    (∀ (created : Nat) (results : List Result),
      FromCacheEntry (NewCacheEntry created results) =
        Except.ok (results, created)) ∧
    FromCacheEntry [] = Except.error "Couldn't decode cacheEntry" ∧
    FromCacheEntry [5] = Except.error "Couldn't decode cacheEntry" ∧
    FromCacheEntry ((NewCacheEntry 7 [rA]).take 4) =
      Except.error "Couldn't decode cacheEntry" :=
  ⟨fun created results => fromCacheEntry_newCacheEntry created results,
    rfl, rfl, rfl⟩

/-- C4: on a `Check` call of the ibit source, a cached entry is returned
as a hit exactly when its bytes decode successfully and its age
`now - created` is strictly below `cacheAge`; an entry that is at least
`cacheAge` old, or whose bytes fail to decode, is a cache miss and the
call proceeds to the live fetch (`ibitFetch`) instead of failing. -/
theorem C4_cache_hit_policy (w : IbitWorld) (imdbID : String) :
    (∀ gob torrentList created, w.cacheVal = some gob →
      FromCacheEntry gob = Except.ok (torrentList, created) →
      (w.now : Int) - (created : Int) < w.cacheAge →
      ibitCheck w imdbID = (Except.ok torrentList, none)) ∧
    (∀ gob torrentList created, w.cacheVal = some gob →
      FromCacheEntry gob = Except.ok (torrentList, created) →
      ¬((w.now : Int) - (created : Int) < w.cacheAge) →
      ibitCheck w imdbID = ibitFetch w (imdbID ++ "-ibit")) ∧
    (∀ gob e, w.cacheVal = some gob →
      FromCacheEntry gob = Except.error e →
      ibitCheck w imdbID = ibitFetch w (imdbID ++ "-ibit")) ∧
    (w.cacheVal = none →
      ibitCheck w imdbID = ibitFetch w (imdbID ++ "-ibit")) := by
  refine ⟨?_, ?_, ?_, ?_⟩
  · intro gob torrentList created h1 h2 h3
    unfold ibitCheck
    rw [cacheHit_fresh w.cacheVal w.now w.cacheAge gob torrentList created h1 h2 h3]
  · intro gob torrentList created h1 h2 h3
    unfold ibitCheck
    rw [cacheHit_stale w.cacheVal w.now w.cacheAge gob torrentList created h1 h2 h3]
  · intro gob e h1 h2
    unfold ibitCheck
    rw [cacheHit_badDecode w.cacheVal w.now w.cacheAge gob e h1 h2]
  · intro h1
    unfold ibitCheck
    rw [show cacheHit w.cacheVal w.now w.cacheAge = none from by
      rw [h1]; rfl]

/-- World for the C4 witness, fresh-entry case: entry created at 90,
read at 100, TTL 500. -/
def wFreshC4 : IbitWorld :=
  ⟨"https://ibit.am", some (NewCacheEntry 90 [rA]), 100, 500,
    Except.error "down", fun _ => none⟩

/-- World for the C4 witness, stale-entry case: entry created at 90,
read at 1000, TTL 500. -/
def wStaleC4 : IbitWorld :=
  ⟨"https://ibit.am", some (NewCacheEntry 90 [rA]), 1000, 500,
    Except.ok [], fun _ => none⟩

/-- Witness for C4 at concrete worlds: the fresh entry is served as a
hit with no write; the stale entry falls through to the live fetch. -/
theorem C4_cache_hit_policy_witness :
    ibitCheck wFreshC4 "tt1" = (Except.ok [rA], none) ∧
    ibitCheck wStaleC4 "tt1" = ibitFetch wStaleC4 "tt1-ibit" := by
  constructor
  · exact (C4_cache_hit_policy wFreshC4 "tt1").1 (NewCacheEntry 90 [rA]) [rA] 90
      rfl (fromCacheEntry_newCacheEntry 90 [rA]) (by decide)
  · exact (C4_cache_hit_policy wStaleC4 "tt1").2.1 (NewCacheEntry 90 [rA]) [rA] 90
      rfl (fromCacheEntry_newCacheEntry 90 [rA]) (by decide)

/-- World exercising the zero-detail-page-links case: the search page
fetches and parses without error but yields no rows. -/
def wZeroC5 : IbitWorld :=
  ⟨"https://ibit.am", none, 100, 500, Except.ok [], fun _ => none⟩

/-- Counterexample to C5: a `Check` call whose search page is fetched
and parsed without any call-level error but yields zero detail-page
links returns success with an empty list and writes nothing to the
cache (the early return at lines 100-102), contradicting the claim that
a fresh entry is written "also when zero detail-page links were
found". -/
theorem C5_counterexample :
    (ibitCheck wZeroC5 "tt1").1 = Except.ok [] ∧
    (ibitCheck wZeroC5 "tt1").2 = none :=
  ⟨rfl, rfl⟩

/-- C5 (amended): on a cache miss, a search-page failure returns the
error and writes nothing; a successfully parsed search page with zero
collected links returns (no results, no error) and writes nothing; and
whenever at least one detail-page link was collected, a fresh cache
entry for `imdbID ++ "-ibit"` is written before returning, even when
the accumulated result list is empty. -/
theorem C5_cache_write (w : IbitWorld) (imdbID : String)
    (hmiss : cacheHit w.cacheVal w.now w.cacheAge = none) :
    (∀ e, w.search = Except.error e →
      ibitCheck w imdbID = (Except.error e, none)) ∧
    (∀ rows, w.search = Except.ok rows → mkUrls w.baseURL rows = [] →
      ibitCheck w imdbID = (Except.ok [], none)) ∧
    (∀ rows, w.search = Except.ok rows → mkUrls w.baseURL rows ≠ [] →
      ibitCheck w imdbID =
        (Except.ok (ibitLoop w.page (mkUrls w.baseURL rows)),
         some (imdbID ++ "-ibit",
           NewCacheEntry w.now (ibitLoop w.page (mkUrls w.baseURL rows))))) := by
  refine ⟨?_, ?_, ?_⟩
  · intro e hs
    unfold ibitCheck
    rw [hmiss]
    unfold ibitFetch
    rw [hs]
  · intro rows hs hurls
    unfold ibitCheck
    rw [hmiss]
    unfold ibitFetch
    rw [hs]
    simp only [hurls, List.isEmpty_nil, if_true]
  · intro rows hs hurls
    exact ibitCheck_live w imdbID rows hmiss hs hurls

/-- World for the C5 witness: one detail-page link whose page carries a
valid magnet, so the loop stores one result and the entry is written. -/
def wWriteC5 : IbitWorld :=
  ⟨"https://x", none, 100, 500, Except.ok [some "/p"],
    fun u => if u = "https://x/p" then
      some ⟨"'magnet:?xt=urn:btih:aa&x.720p'", "T"⟩ else none⟩

/-- Witness for C5 at a concrete world: the call returns the loop's
results and writes the fresh entry under the `-ibit` key. -/
theorem C5_cache_write_witness :
    ibitCheck wWriteC5 "tt2" =
      (Except.ok (ibitLoop wWriteC5.page (mkUrls wWriteC5.baseURL [some "/p"])),
       some ("tt2-ibit",
         NewCacheEntry 100 (ibitLoop wWriteC5.page (mkUrls wWriteC5.baseURL [some "/p"])))) :=
  (C5_cache_write wWriteC5 "tt2" rfl).2.2 [some "/p"] rfl (by decide)

/-- Counterexample to C9: a magnet string containing `"2160p"` and
`"10bit"` and no `"HDCAM"` marker, but also containing `"1080p"`,
classifies to `"1080p 10bit"` (the `else if` chain gives `"1080p"`
precedence), not to `"2160p 10bit"` as the claim universally states. -/
theorem C9_counterexample :
    containsStr "x.2160p.10bit.1080p" "2160p" = true ∧
    containsStr "x.2160p.10bit.1080p" "10bit" = true ∧
    containsStr "x.2160p.10bit.1080p" "HDCAM" = false ∧
    classifyQuality "x.2160p.10bit.1080p" = some "1080p 10bit" ∧
    classifyQuality "x.2160p.10bit.1080p" ≠ some "2160p 10bit" :=
  ⟨rfl, rfl, rfl, rfl, by decide⟩

/-- C9 (amended): a magnet containing `"2160p"` and `"10bit"` and no
`"HDCAM"` marker — and neither `"720p"` nor `"1080p"`, which take
precedence in the `else if` chain — classifies exactly to
`"2160p 10bit"`; absence of all three resolution markers classifies to
`none` and makes the page be skipped; `"10bit"` appends `" 10bit"` to
the selected base quality; `"HDCAM"` appends the cam-release warning
marker. -/
theorem C9_quality_classification :
    (∀ m : String, containsStr m "720p" = false → containsStr m "1080p" = false →
      containsStr m "2160p" = true → containsStr m "10bit" = true →
      containsStr m "HDCAM" = false → classifyQuality m = some "2160p 10bit") ∧
    (∀ m : String, containsStr m "720p" = false → containsStr m "1080p" = false →
      containsStr m "2160p" = false → classifyQuality m = none) ∧
    (∀ pd : PageData,
      classifyQuality (String.mk (trimCharL squote pd.magnetRaw.data)) = none →
      processPage pd = none) ∧
    (∀ m q, classifyQuality m = some q → containsStr m "10bit" = true →
      ∃ q0, baseQuality m = some q0 ∧
        (q = q0 ++ " 10bit" ∨ q = q0 ++ " 10bit" ++ " (⚠️cam)")) ∧
    (∀ m q, classifyQuality m = some q → containsStr m "HDCAM" = true →
      ∃ q1, q = q1 ++ " (⚠️cam)") := by
  refine ⟨?_, ?_, ?_, ?_, ?_⟩
  · intro m h720 h1080 h2160 h10 hcam
    simp only [classifyQuality, baseQuality, h720, h1080, h2160, h10, hcam]
    rfl
  · intro m h720 h1080 h2160
    simp only [classifyQuality, baseQuality, h720, h1080, h2160]
    rfl
  · intro pd hq
    simp only [processPage, hq]
    split
    · rfl
    · split
      · rfl
      · rfl
  · intro m q hq h10
    rcases hb : baseQuality m with _ | q0
    · simp only [classifyQuality, hb] at hq
      exact Option.noConfusion hq
    · simp only [classifyQuality, hb, h10, if_true, Option.some.injEq] at hq
      refine ⟨q0, rfl, ?_⟩
      by_cases hcam : containsStr m "HDCAM" = true
      · rw [hcam, if_pos rfl] at hq
        exact Or.inr hq.symm
      · rw [if_neg (by simpa using hcam)] at hq
        exact Or.inl hq.symm
  · intro m q hq hcam
    rcases hb : baseQuality m with _ | q0
    · simp only [classifyQuality, hb] at hq
      exact Option.noConfusion hq
    · simp only [classifyQuality, hb, hcam, if_true, Option.some.injEq] at hq
      exact ⟨_, hq.symm⟩

/-- Witness for C9 at concrete magnet strings and one concrete page. -/
theorem C9_quality_classification_witness :
    classifyQuality "x.2160p.10bit" = some "2160p 10bit" ∧
    classifyQuality "xyz" = none ∧
    processPage ⟨"'magnet:xyz'", "T"⟩ = none := by
  refine ⟨?_, ?_, ?_⟩
  · exact C9_quality_classification.1 "x.2160p.10bit" rfl rfl rfl rfl rfl
  · exact C9_quality_classification.2.1 "xyz" rfl rfl rfl
  · exact C9_quality_classification.2.2.1 ⟨"'magnet:xyz'", "T"⟩ (by decide)

/-- C10: when a magnet string contains several of the resolution
markers, the `if / else if` chain resolves the ambiguity with the fixed
precedence 720p over 1080p over 2160p; consequently the full quality
string of a 720p-containing magnet always starts with `"720p"`. -/
theorem C10_resolution_precedence :
    (∀ m : String, containsStr m "720p" = true → baseQuality m = some "720p") ∧
    (∀ m : String, containsStr m "720p" = false → containsStr m "1080p" = true →
      baseQuality m = some "1080p") ∧
    (∀ m : String, containsStr m "720p" = false → containsStr m "1080p" = false →
      containsStr m "2160p" = true → baseQuality m = some "2160p") ∧
    (∀ m q, containsStr m "720p" = true → classifyQuality m = some q →
      "720p".data.isPrefixOf q.data = true) := by
  refine ⟨?_, ?_, ?_, ?_⟩
  · intro m h720
    simp only [baseQuality, h720, if_true]
  · intro m h720 h1080
    simp only [baseQuality, h720, h1080, if_true]
    rfl
  · intro m h720 h1080 h2160
    simp only [baseQuality, h720, h1080, h2160, if_true]
    rfl
  · intro m q h720 hq
    have hb : baseQuality m = some "720p" := by
      simp only [baseQuality, h720, if_true]
    simp only [classifyQuality, hb] at hq
    apply List.isPrefixOf_iff_prefix.mpr
    have hpre : ∀ s : String, "720p".data <+: ("720p" ++ s).data := by
      intro s
      rw [String.data_append]
      exact List.prefix_append _ _
    by_cases h10 : containsStr m "10bit" = true <;>
      by_cases hcam : containsStr m "HDCAM" = true <;>
        simp only [h10, hcam, if_true, if_false, Bool.false_eq_true,
          Option.some.injEq] at hq <;> subst hq
    · rw [String.data_append]
      exact (hpre " 10bit").trans (List.prefix_append _ _)
    · exact hpre " 10bit"
    · exact hpre " (⚠️cam)"
    · exact List.prefix_rfl

/-- Witness for C10 at concrete magnet strings containing several
resolution markers. -/
theorem C10_resolution_precedence_witness :
    baseQuality "x.720p.2160p" = some "720p" ∧
    baseQuality "x.1080p.2160p" = some "1080p" ∧
    baseQuality "x.2160p" = some "2160p" := by
  refine ⟨?_, ?_, ?_⟩
  · exact C10_resolution_precedence.1 "x.720p.2160p" rfl
  · exact C10_resolution_precedence.2.1 "x.1080p.2160p" rfl rfl
  · exact C10_resolution_precedence.2.2.1 "x.2160p" rfl rfl rfl

/-- World for the C8 counterexample: a page whose magnet carries the
non-hexadecimal hash text `zz` between `btih:` and `&`. -/
def wC8 : IbitWorld :=
  ⟨"https://x", none, 100, 500, Except.ok [some "/p"],
    fun u => if u = "https://x/p" then
      some ⟨"'magnet:?xt=urn:btih:zz&x.720p'", "T"⟩ else none⟩

/-- Counterexample to C8: the ibit source stores a `Result` whose
info-hash is `"ZZ"` — non-empty and uppercased, but not hexadecimal
(`Z` is not a hex digit); the extraction uppercases but never validates
the character set. -/
theorem C8_counterexample :
    (ibitCheck wC8 "tt0").1 =
      Except.ok [⟨"T", "720p", "ZZ", "magnet:?xt=urn:btih:zz&x.720p"⟩] ∧
    ¬(∀ c ∈ ("ZZ" : String).data, c ∈ "0123456789ABCDEF".data) :=
  ⟨rfl, by decide⟩

/-- C8 (amended): every `Result` constructed by the ibit page
processing — hence every element of the result list it accumulates and
of every cache entry it writes — has a non-empty info-hash containing
no lowercase ASCII letter (both extraction tiers apply
`strings.ToUpper`, and a page whose hash cannot be extracted by either
tier is skipped before a `Result` is built); the hexadecimal character
set itself is not enforced by the code. -/
theorem C8_infoHash_invariant :
    (∀ pd r, processPage pd = some r →
      r.InfoHash ≠ "" ∧
        ∀ c ∈ r.InfoHash.data, ¬(97 ≤ c.toNat ∧ c.toNat ≤ 122)) ∧
    (∀ w imdbID k bs, (ibitCheck w imdbID).2 = some (k, bs) →
      ∃ rs, k = imdbID ++ "-ibit" ∧ bs = NewCacheEntry w.now rs ∧
        ∀ r ∈ rs, r.InfoHash ≠ "" ∧
          ∀ c ∈ r.InfoHash.data, ¬(97 ≤ c.toNat ∧ c.toNat ≤ 122)) := by
  constructor
  · exact processPage_invariant
  · intro w imdbID k bs h
    obtain ⟨rs, hk, hbs, hmem⟩ := ibitCheck_write w imdbID k bs h
    refine ⟨rs, hk, hbs, fun r hr => ?_⟩
    obtain ⟨pd, hpd⟩ := hmem r hr
    exact processPage_invariant pd r hpd

/-- Witness for C8 at a concrete processed page. -/
theorem C8_infoHash_invariant_witness :
    (⟨"T", "720p", "AA", "magnet:?xt=urn:btih:aa&x.720p"⟩ : Result).InfoHash ≠ "" ∧
    ∀ c ∈ (⟨"T", "720p", "AA", "magnet:?xt=urn:btih:aa&x.720p"⟩ : Result).InfoHash.data,
      ¬(97 ≤ c.toNat ∧ c.toNat ≤ 122) :=
  C8_infoHash_invariant.1 ⟨"'magnet:?xt=urn:btih:aa&x.720p'", "T"⟩
    ⟨"T", "720p", "AA", "magnet:?xt=urn:btih:aa&x.720p"⟩ rfl

/-- Counterexample to C1: a run in which all four awaited sources (all
four configured sources: the three fast ones plus ibit, whose error
arrived within the grace period) return errors.  The message loop runs
for `i = 1..torrentSiteCount` (= 3) only, so the returned error message
has 3 index-attributed segments, not one per configured source
(`configuredSources.length = 4`), and the ibit error text `"z"` appears
nowhere in it. -/
theorem C1_counterexample :
    FindMagnets [Outcome.err "a", Outcome.err "b", Outcome.err "c"]
        (some (Outcome.err "z")) =
      Except.error "Couldn't find torrents on any site: 1.: a; 2.: b; 3.: c" ∧
    configuredSources.length = 4 ∧
    countOcc ".: ".data
      "Couldn't find torrents on any site: 1.: a; 2.: b; 3.: c".data = 3 ∧
    countOcc ".: ".data
        "Couldn't find torrents on any site: 1.: a; 2.: b; 3.: c".data ≠
      configuredSources.length ∧
    containsStr "Couldn't find torrents on any site: 1.: a; 2.: b; 3.: c" "z" =
      false :=
  ⟨rfl, rfl, by decide, by decide, by decide⟩

/-- C1 (amended): if every awaited source (the three fast sources, plus
ibit when it answered within the grace period) returned an error, then
`FindMagnets` returns no result list and an error whose message
contains one distinct index-attributed segment per fast source — three
segments, holding the three fast errors in completion order — while an
ibit error received within the grace period is recorded but not
included in the message; and if at least one awaited source returned a
result list (even an empty one), `FindMagnets` returns no error. -/
theorem C1_error_aggregation :
    (∀ e1 e2 e3 ibit,
      (ibit = none ∨ ∃ e, ibit = some (Outcome.err e)) →
      FindMagnets [Outcome.err e1, Outcome.err e2, Outcome.err e3] ibit =
        Except.error ("Couldn't find torrents on any site: " ++ "1.: " ++ e1 ++
          "; " ++ "2.: " ++ e2 ++ "; " ++ "3.: " ++ e3)) ∧
    (∀ fast ibit, fast.length = 3 →
      ((∃ rs, Outcome.ok rs ∈ fast) ∨ (∃ rs, ibit = some (Outcome.ok rs))) →
      ∃ l, FindMagnets fast ibit = Except.ok l) := by
  constructor
  · intro e1 e2 e3 ibit hibit
    rcases hibit with rfl | ⟨e, rfl⟩
    · rw [show FindMagnets [Outcome.err e1, Outcome.err e2, Outcome.err e3] none =
          Except.error (errsMsg [e1, e2, e3]) from rfl]
      rw [errsMsg_eq e1 e2 e3 []]
    · rw [show FindMagnets [Outcome.err e1, Outcome.err e2, Outcome.err e3]
          (some (Outcome.err e)) =
          Except.error (errsMsg [e1, e2, e3, e]) from rfl]
      rw [errsMsg_eq e1 e2 e3 [e]]
  · intro fast ibit h3 hok
    have hflag : (afterIbit (fast.foldl collectStep ⟨[], [], false⟩)
        ((fast.foldl collectStep ⟨[], [], false⟩).errs.length == 3) ibit).2 =
        false := by
      rw [afterIbit_flag]
      rcases hok with ⟨rs, hmem⟩ | ⟨rs, rfl⟩
      · have hlt : (errList fast).length < 3 := by
          have := errList_length_lt fast rs hmem
          omega
        have hbe : ((fast.foldl collectStep ⟨[], [], false⟩).errs.length == 3) =
            false := by
          rw [errs_foldl]
          simp only [List.nil_append]
          exact beq_eq_false_iff_ne.mpr (by omega)
        rw [hbe, Bool.false_and]
      · rw [show ibitDeliveredOk (some (Outcome.ok rs)) = true from rfl]
        simp
    simp only [FindMagnets, hflag, Bool.false_eq_true, if_false]
    exact ⟨_, rfl⟩

/-- Witness for C1 at concrete runs: an all-errors run with the grace
period elapsed, and a run where one fast source delivered a list. -/
theorem C1_error_aggregation_witness :
    FindMagnets [Outcome.err "a", Outcome.err "b", Outcome.err "c"] none =
      Except.error ("Couldn't find torrents on any site: " ++ "1.: " ++ "a" ++
        "; " ++ "2.: " ++ "b" ++ "; " ++ "3.: " ++ "c") ∧
    ∃ l, FindMagnets [Outcome.ok [], Outcome.err "b", Outcome.err "c"] none =
      Except.ok l := by
  constructor
  · exact C1_error_aggregation.1 "a" "b" "c" none (Or.inl rfl)
  · exact C1_error_aggregation.2
      [Outcome.ok [], Outcome.err "b", Outcome.err "c"] none rfl
      (Or.inl ⟨[], by simp⟩)

/-- C2: in every run in which two or more awaited sources contributed
non-empty result lists, `FindMagnets` succeeds and the returned list
has pairwise-distinct info-hashes; it is a sublist of the concatenation
of the delivered lists in completion order (relative order preserved),
each kept element is the first occurrence of its info-hash in that
concatenation, and no info-hash of the concatenation is lost. -/
theorem C2_dedup_on_merge (fast : List Outcome) (ibit : Option Outcome)
    (h3 : fast.length = 3)
    (htwo : 2 ≤ neCount (awaited fast ibit)) :
    ∃ l, FindMagnets fast ibit = Except.ok l ∧
      l.Pairwise (fun a b => a.InfoHash ≠ b.InfoHash) ∧
      l.Sublist (okFlat (awaited fast ibit)) ∧
      (∀ r ∈ l, (okFlat (awaited fast ibit)).find?
        (fun x => x.InfoHash == r.InfoHash) = some r) ∧
      (∀ r ∈ okFlat (awaited fast ibit), ∃ r2 ∈ l,
        r2.InfoHash = r.InfoHash) := by
  have hstate : (afterIbit (fast.foldl collectStep ⟨[], [], false⟩)
      ((fast.foldl collectStep ⟨[], [], false⟩).errs.length == 3) ibit).1 =
      (awaited fast ibit).foldl collectStep ⟨[], [], false⟩ := by
    rw [afterIbit_state, awaited, List.foldl_append]
  have hcomb : (afterIbit (fast.foldl collectStep ⟨[], [], false⟩)
      ((fast.foldl collectStep ⟨[], [], false⟩).errs.length == 3) ibit).1.combined =
      okFlat (awaited fast ibit) := by
    rw [hstate, combined_foldl]
    simp
  have hdup : (afterIbit (fast.foldl collectStep ⟨[], [], false⟩)
      ((fast.foldl collectStep ⟨[], [], false⟩).errs.length == 3) ibit).1.dupRemovalRequired =
      true := by
    rw [hstate]
    exact (dup_foldl _ _).mpr (Or.inr (Or.inr htwo))
  have hflag : (afterIbit (fast.foldl collectStep ⟨[], [], false⟩)
      ((fast.foldl collectStep ⟨[], [], false⟩).errs.length == 3) ibit).2 =
      false := by
    rw [afterIbit_flag]
    by_cases hio : ibitDeliveredOk ibit = true
    · rw [hio]
      simp
    · have hiz : neCount ibit.toList = 0 := by
        rcases ibit with _ | o
        · rfl
        · cases o with
          | ok results => simp [ibitDeliveredOk] at hio
          | err e => rfl
      have h2f : 2 ≤ neCount fast := by
        have := neCount_append fast ibit.toList
        rw [awaited] at htwo
        omega
      obtain ⟨rs, hmem, _⟩ := exists_ok_of_neCount_pos fast (by omega)
      have hlt : (errList fast).length < 3 := by
        have := errList_length_lt fast rs hmem
        omega
      have hbe : ((fast.foldl collectStep ⟨[], [], false⟩).errs.length == 3) =
          false := by
        rw [errs_foldl]
        simp only [List.nil_append]
        exact beq_eq_false_iff_ne.mpr (by omega)
      rw [hbe, Bool.false_and]
  refine ⟨dedupResults [] (okFlat (awaited fast ibit)), ?_, ?_, ?_, ?_, ?_⟩
  · simp only [FindMagnets, hflag, Bool.false_eq_true, if_false, hdup, if_true,
      hcomb]
  · exact dedupResults_pairwise [] _
  · exact dedupResults_sublist [] _
  · exact dedupResults_find_first [] _
  · intro r hr
    rcases dedupResults_covers [] (okFlat (awaited fast ibit)) r hr with hs | h
    · simp at hs
    · exact h

/-- Witness for C2: two overlapping non-empty lists from two sources;
the duplicate of `rA`'s hash is dropped, `rA` and `rB` are kept in
order. -/
theorem C2_dedup_on_merge_witness :
    ∃ l, FindMagnets [Outcome.ok [rA], Outcome.ok [rA2, rB], Outcome.err "e"]
        none = Except.ok l ∧
      l.Pairwise (fun a b => a.InfoHash ≠ b.InfoHash) ∧
      l.Sublist (okFlat (awaited
        [Outcome.ok [rA], Outcome.ok [rA2, rB], Outcome.err "e"] none)) ∧
      (∀ r ∈ l, (okFlat (awaited
          [Outcome.ok [rA], Outcome.ok [rA2, rB], Outcome.err "e"] none)).find?
        (fun x => x.InfoHash == r.InfoHash) = some r) ∧
      (∀ r ∈ okFlat (awaited
          [Outcome.ok [rA], Outcome.ok [rA2, rB], Outcome.err "e"] none),
        ∃ r2 ∈ l, r2.InfoHash = r.InfoHash) :=
  C2_dedup_on_merge [Outcome.ok [rA], Outcome.ok [rA2, rB], Outcome.err "e"]
    none rfl (by decide)

/-- C7: in every run in which every awaited source returned a result
list (no errors) and at most one of those lists was non-empty, no dedup
pass is applied: the returned list is exactly the concatenation of the
delivered lists, and it equals any non-empty delivered list unchanged,
with no error. -/
theorem C7_single_source_passthrough (fast : List Outcome)
    (ibit : Option Outcome) (_h3 : fast.length = 3)
    (hall : ∀ o ∈ awaited fast ibit, ∃ rs, o = Outcome.ok rs)
    (hle : neCount (awaited fast ibit) ≤ 1) :
    FindMagnets fast ibit = Except.ok (okFlat (awaited fast ibit)) ∧
    ∀ rs, Outcome.ok rs ∈ awaited fast ibit → rs ≠ [] →
      okFlat (awaited fast ibit) = rs := by
  have hstate : (afterIbit (fast.foldl collectStep ⟨[], [], false⟩)
      ((fast.foldl collectStep ⟨[], [], false⟩).errs.length == 3) ibit).1 =
      (awaited fast ibit).foldl collectStep ⟨[], [], false⟩ := by
    rw [afterIbit_state, awaited, List.foldl_append]
  have hcomb : (afterIbit (fast.foldl collectStep ⟨[], [], false⟩)
      ((fast.foldl collectStep ⟨[], [], false⟩).errs.length == 3) ibit).1.combined =
      okFlat (awaited fast ibit) := by
    rw [hstate, combined_foldl]
    simp
  have hdup : (afterIbit (fast.foldl collectStep ⟨[], [], false⟩)
      ((fast.foldl collectStep ⟨[], [], false⟩).errs.length == 3) ibit).1.dupRemovalRequired =
      false := by
    rw [hstate]
    rw [Bool.eq_false_iff]
    intro hc
    rcases (dup_foldl _ _).mp hc with h | ⟨h, _⟩ | h
    · simp at h
    · exact h rfl
    · omega
  have hflag : (afterIbit (fast.foldl collectStep ⟨[], [], false⟩)
      ((fast.foldl collectStep ⟨[], [], false⟩).errs.length == 3) ibit).2 =
      false := by
    rw [afterIbit_flag]
    have hnil : errList fast = [] := by
      apply errList_nil_of_all_ok
      intro o ho
      exact hall o (by rw [awaited]; exact List.mem_append_left _ ho)
    have hbe : ((fast.foldl collectStep ⟨[], [], false⟩).errs.length == 3) =
        false := by
      rw [errs_foldl]
      simp only [List.nil_append, hnil]
      rfl
    rw [hbe, Bool.false_and]
  constructor
  · simp only [FindMagnets, hflag, Bool.false_eq_true, if_false, hdup,
      Bool.false_eq_true, if_false, hcomb]
  · intro rs hmem hne
    exact okFlat_single (awaited fast ibit) rs hle hmem hne

/-- Witness for C7: exactly one non-empty list among three empty-or-ok
awaited outcomes is passed through unchanged. -/
theorem C7_single_source_passthrough_witness :
    FindMagnets [Outcome.ok [], Outcome.ok [rA, rB], Outcome.ok []] none =
      Except.ok (okFlat (awaited
        [Outcome.ok [], Outcome.ok [rA, rB], Outcome.ok []] none)) ∧
    ∀ rs, Outcome.ok rs ∈ awaited
        [Outcome.ok [], Outcome.ok [rA, rB], Outcome.ok []] none → rs ≠ [] →
      okFlat (awaited [Outcome.ok [], Outcome.ok [rA, rB], Outcome.ok []] none) =
        rs :=
  C7_single_source_passthrough
    [Outcome.ok [], Outcome.ok [rA, rB], Outcome.ok []] none rfl
    (by
      intro o ho
      rcases (by simpa [awaited, Option.toList] using ho :
        o = Outcome.ok [] ∨ o = Outcome.ok [rA, rB] ∨
          o = Outcome.ok []) with rfl | rfl | rfl
      · exact ⟨[], rfl⟩
      · exact ⟨[rA, rB], rfl⟩
      · exact ⟨[], rfl⟩)
    (by decide)

/-- C6: when the grace period elapses before the ibit task reports
(`ibit = none`), a successful `FindMagnets` result contains only results
of the fast sources; the undelivered ibit outcome plays no part in this
call.  The uncancelled background task, once it runs to completion on a
cache miss with a parsed search page and at least one link, writes its
fresh cache entry under the identifier's `-ibit` key, and a later
`Check` call for the same identifier that reads that entry within the
TTL observes the populated cache: it returns exactly the background
task's results as a hit. -/
theorem C6_grace_period_background :
    (∀ fast l, FindMagnets fast none = Except.ok l →
      l.Sublist (okFlat fast)) ∧
    (∀ (w : IbitWorld) (imdbID : String) (rows : List (Option String)),
      cacheHit w.cacheVal w.now w.cacheAge = none →
      w.search = Except.ok rows →
      mkUrls w.baseURL rows ≠ [] →
      (ibitCheck w imdbID).2 =
        some (imdbID ++ "-ibit",
          NewCacheEntry w.now (ibitLoop w.page (mkUrls w.baseURL rows))) ∧
      ∀ w2 : IbitWorld,
        w2.cacheVal =
          some (NewCacheEntry w.now (ibitLoop w.page (mkUrls w.baseURL rows))) →
        (w2.now : Int) - (w.now : Int) < w2.cacheAge →
        ibitCheck w2 imdbID =
          (Except.ok (ibitLoop w.page (mkUrls w.baseURL rows)), none)) := by
  constructor
  · intro fast l h
    simp only [FindMagnets] at h
    rw [show afterIbit (fast.foldl collectStep ⟨[], [], false⟩)
        ((fast.foldl collectStep ⟨[], [], false⟩).errs.length == 3) none =
        ((fast.foldl collectStep ⟨[], [], false⟩),
         ((fast.foldl collectStep ⟨[], [], false⟩).errs.length == 3)) from rfl] at h
    have hcomb : (fast.foldl collectStep ⟨[], [], false⟩).combined =
        okFlat fast := by
      rw [combined_foldl]
      simp
    split at h
    · exact absurd h (by simp)
    · split at h
      · have hl : dedupResults []
            (fast.foldl collectStep ⟨[], [], false⟩).combined = l :=
          Except.ok.inj h
        rw [← hl, hcomb]
        exact dedupResults_sublist [] _
      · have hl : (fast.foldl collectStep ⟨[], [], false⟩).combined = l :=
          Except.ok.inj h
        rw [← hl, hcomb]
  · intro w imdbID rows hmiss hs hurls
    constructor
    · rw [ibitCheck_live w imdbID rows hmiss hs hurls]
    · intro w2 hcv hage
      unfold ibitCheck
      rw [cacheHit_fresh w2.cacheVal w2.now w2.cacheAge
        (NewCacheEntry w.now (ibitLoop w.page (mkUrls w.baseURL rows)))
        (ibitLoop w.page (mkUrls w.baseURL rows)) w.now hcv
        (fromCacheEntry_newCacheEntry _ _) hage]

/-- World for the C6 witness: the background ibit task completing after
the orchestrator already returned. -/
def wBgC6 : IbitWorld :=
  ⟨"https://x", none, 100, 500, Except.ok [some "/p"],
    fun u => if u = "https://x/p" then
      some ⟨"'magnet:?xt=urn:btih:bb&x.1080p'", "U"⟩ else none⟩

/-- World for the C6 witness: a later call for the same identifier
finding the cache populated by the background task. -/
def wLaterC6 : IbitWorld :=
  ⟨"https://x",
    some (NewCacheEntry 100 (ibitLoop wBgC6.page (mkUrls wBgC6.baseURL [some "/p"]))),
    200, 500, Except.error "down", fun _ => none⟩

/-- Witness for C6 at a concrete run: the grace-elapsed merge contains
only fast results; the completed background call writes the entry and a
later call reads it back as a hit. -/
theorem C6_grace_period_background_witness :
    ([rA] : List Result).Sublist
      (okFlat [Outcome.ok [rA], Outcome.err "b", Outcome.ok []]) ∧
    (ibitCheck wBgC6 "tt3").2 =
      some ("tt3-ibit",
        NewCacheEntry 100 (ibitLoop wBgC6.page (mkUrls wBgC6.baseURL [some "/p"]))) ∧
    ibitCheck wLaterC6 "tt3" =
      (Except.ok (ibitLoop wBgC6.page (mkUrls wBgC6.baseURL [some "/p"])), none) := by
  have hb := C6_grace_period_background.2 wBgC6 "tt3" [some "/p"]
    rfl rfl (by decide)
  refine ⟨?_, hb.1, ?_⟩
  · exact C6_grace_period_background.1
      [Outcome.ok [rA], Outcome.err "b", Outcome.ok []] [rA] rfl
  · exact hb.2 wLaterC6 rfl (by decide)

end Imdb2Torrent
